import Mathlib

/-!
# Verification of the `queue` package (ring buffer-based FIFO queue)

Shallow embedding of `queue.go`: a ring-buffer queue over a generic element
type, in bounded (fixed capacity) and unbounded (capacity-doubling) variants.

Go conventions mapped to Lean:
* a Go slice `[]Element` of fixed length becomes a `List Element` whose
  `List.length` is the slice capacity (`cap(q.items)`);
* the zero value of the element type (`var item Element`) becomes
  `(default : E)` from an `Inhabited E` instance;
* `make([]Element, n)` for an `int` argument `n` becomes `goMakeSlice`,
  returning `none` for negative `n` (Go panics at run time on a negative
  slice length);
* methods on the pointer receiver become state-passing functions: each
  returns its results together with the updated queue record; a branch of
  the Go body that performs no field assignment returns the record
  unchanged;
* Go `int` indices `front` and `length` are modelled as `Nat`: both start
  at 0, `length--` happens only after a successful emptiness check, and
  `front` is only ever assigned values of `_ % cap`, so they stay
  non-negative in Go; queue sizes stay far below 2^63, so `int` overflow
  is not modelled.
-/

/-- The two error values of the package: `ErrQueueEmpty` and `ErrQueueFull`. -/
inductive QueueError : Type
  | queueEmpty
  | queueFull
deriving DecidableEq, Repr

/-- The struct `ringBufferQueue[Element]`: backing slice `items`, index
`front` of the oldest element, live-element count `length`, and the
`bounded` flag fixed at construction. -/
structure RingBufferQueue (E : Type) : Type where
  items : List E
  front : Nat
  length : Nat
  bounded : Bool
deriving DecidableEq, Repr

/-- The constant `defaultRingBufferQueueCapacity = 2`. -/
def defaultRingBufferQueueCapacity : Int := 2

/-- Go's `make([]Element, n)`: a slice of `n` zero values; panics (modelled
as `none`) when `n` is negative. -/
def goMakeSlice (E : Type) [Inhabited E] (n : Int) : Option (List E) :=
  if n < 0 then none else some (List.replicate n.toNat (default : E))

/-- Go's built-in `copy(dst, src)`: writes `min (len dst) (len src)`
elements of `src` into the front of `dst`, returning the new `dst`
contents and the count copied. -/
def goCopy {E : Type} (dst src : List E) : List E × Nat :=
  let n := min dst.length src.length
  (src.take n ++ dst.drop n, n)

/-- Go's `copy(dst[start:], src)`: like `goCopy` into the subslice of
`dst` beginning at `start`. -/
def goCopyAt {E : Type} (dst : List E) (start : Nat) (src : List E) : List E × Nat :=
  let n := min (dst.length - start) src.length
  (dst.take start ++ src.take n ++ dst.drop (start + n), n)

/-- `newBoundedRingBufferQueue`: capacity 0 is replaced by the default
capacity 2, then the backing slice is allocated and the `bounded` flag set. -/
def newBoundedRingBufferQueue (E : Type) [Inhabited E] (capacity : Int) :
    Option (RingBufferQueue E) :=
  let capacity := if capacity = 0 then defaultRingBufferQueueCapacity else capacity
  (goMakeSlice E capacity).map fun items =>
    { items := items, front := 0, length := 0, bounded := true }

/-- `newUnboundedRingBufferQueue`: capacity 0 is replaced by the default
capacity 2, then the backing slice is allocated with `bounded` unset. -/
def newUnboundedRingBufferQueue (E : Type) [Inhabited E] (initialCapacity : Int) :
    Option (RingBufferQueue E) :=
  let initialCapacity :=
    if initialCapacity = 0 then defaultRingBufferQueueCapacity else initialCapacity
  (goMakeSlice E initialCapacity).map fun items =>
    { items := items, front := 0, length := 0, bounded := false }

/-- The method `expand`: when `length` has reached the capacity, allocate a
slice of twice the capacity, copy `items[front:length]` to its front, then
(if `front > 0`) copy `items[0:front]` right after, and reset `front` to 0. -/
def expand {E : Type} [Inhabited E] (q : RingBufferQueue E) : RingBufferQueue E :=
  if q.length < q.items.length then q
  else
    let newCapacity := q.items.length * 2
    let newItems := List.replicate newCapacity (default : E)
    let r1 := goCopy newItems ((q.items.drop q.front).take (q.length - q.front))
    let copyCount := r1.2
    let newItems2 :=
      if q.front > 0 then (goCopyAt r1.1 copyCount (q.items.take q.front)).1
      else r1.1
    { q with items := newItems2, front := 0 }

/-- The method `Push`: at capacity, a bounded queue rejects with
`ErrQueueFull` (no mutation) and an unbounded queue expands; then the item
is written at slot `(front + length) % cap` and `length` is incremented. -/
def RingBufferQueue.Push {E : Type} [Inhabited E] (q : RingBufferQueue E) (item : E) :
    RingBufferQueue E × Option QueueError :=
  if q.length = q.items.length then
    if q.bounded then (q, some .queueFull)
    else
      let q := expand q
      let back := (q.front + q.length) % q.items.length
      ({ q with items := q.items.set back item, length := q.length + 1 }, none)
  else
    let back := (q.front + q.length) % q.items.length
    ({ q with items := q.items.set back item, length := q.length + 1 }, none)

/-- The method `Peek`: on an empty queue, the element type's zero value and
`ErrQueueEmpty`; otherwise `items[front]`. The body assigns no field, so
the state component is the receiver unchanged. -/
def RingBufferQueue.Peek {E : Type} [Inhabited E] (q : RingBufferQueue E) :
    (E × Option QueueError) × RingBufferQueue E :=
  if q.length = 0 then (((default : E), some .queueEmpty), q)
  else ((q.items.getD q.front default, none), q)

/-- The method `Pop`: delegates the emptiness check and the element read to
`Peek`; on success advances `front = (front + 1) % cap` and decrements
`length`. -/
def RingBufferQueue.Pop {E : Type} [Inhabited E] (q : RingBufferQueue E) :
    (E × Option QueueError) × RingBufferQueue E :=
  let r := q.Peek
  match r.1.2 with
  | some e => ((r.1.1, some e), r.2)
  | none =>
    ((r.1.1, none),
      { r.2 with front := (r.2.front + 1) % r.2.items.length, length := r.2.length - 1 })

/-- The method `Length`: returns the `length` field. -/
def RingBufferQueue.Length {E : Type} (q : RingBufferQueue E) : Nat :=
  q.length

/-- The live contents of the queue in FIFO order: the circular range
`[front, front+length) mod cap` of the backing slice. -/
def toListQ {E : Type} (q : RingBufferQueue E) : List E :=
  ((q.items.drop q.front) ++ (q.items.take q.front)).take q.length

/-- Well-formedness of a queue state: positive capacity, `front` in range,
and `length` at most the capacity. -/
def QInv {E : Type} (q : RingBufferQueue E) : Prop :=
  0 < q.items.length ∧ q.front < q.items.length ∧ q.length ≤ q.items.length

/-- Push each element of `xs` in order, stopping at the first error. -/
def pushAll {E : Type} [Inhabited E] (q : RingBufferQueue E) :
    List E → RingBufferQueue E × Option QueueError
  | [] => (q, none)
  | x :: xs =>
    match q.Push x with
    | (q', none) => pushAll q' xs
    | (q', some e) => (q', some e)

/-- Pop `n` times, collecting each call's (value, error) result. -/
def popN {E : Type} [Inhabited E] (q : RingBufferQueue E) :
    Nat → List (E × Option QueueError) × RingBufferQueue E
  | 0 => ([], q)
  | n + 1 =>
    let r := q.Pop
    let rest := popN r.2 n
    (r.1 :: rest.1, rest.2)

/-- Peek `n` times consecutively, threading the (unchanged) state between
calls and collecting each call's (value, error) result. -/
def peekN {E : Type} [Inhabited E] (q : RingBufferQueue E) :
    Nat → List (E × Option QueueError)
  | 0 => []
  | n + 1 =>
    let r := q.Peek
    r.1 :: peekN r.2 n

/-- An operation against a queue: a push of a given item, or a pop. -/
inductive QOp (E : Type) : Type
  | push (x : E)
  | pop

/-- Run a list of operations, returning the final state together with the
number of successful pushes and of successful pops. -/
def runOps {E : Type} [Inhabited E] (q : RingBufferQueue E) :
    List (QOp E) → RingBufferQueue E × Nat × Nat
  | [] => (q, 0, 0)
  | .push x :: ops =>
    let r := q.Push x
    let rest := runOps r.1 ops
    (rest.1, (match r.2 with | none => 1 | some _ => 0) + rest.2.1, rest.2.2)
  | .pop :: ops =>
    let r := q.Pop
    let rest := runOps r.2 ops
    (rest.1, rest.2.1, (match r.1.2 with | none => 1 | some _ => 0) + rest.2.2)

/-- Queue states reachable from either constructor through the public
operations. -/
inductive Reachable {E : Type} [Inhabited E] : RingBufferQueue E → Prop
  | boundedNew (c : Int) (q : RingBufferQueue E)
      (h : newBoundedRingBufferQueue E c = some q) : Reachable q
  | unboundedNew (c : Int) (q : RingBufferQueue E)
      (h : newUnboundedRingBufferQueue E c = some q) : Reachable q
  | pushStep (q : RingBufferQueue E) (x : E) (h : Reachable q) : Reachable (q.Push x).1
  | popStep (q : RingBufferQueue E) (h : Reachable q) : Reachable q.Pop.2

/-! ## Basic lemmas -/

theorem qmod_lt_two_mul {a n : Nat} (h : a < 2 * n) :
    a % n = if a < n then a else a - n := by
  split
  · exact Nat.mod_eq_of_lt (by assumption)
  · rw [Nat.mod_eq_sub_mod (by omega)]
    exact Nat.mod_eq_of_lt (by omega)

theorem toListQ_length {E : Type} {q : RingBufferQueue E} (h : QInv q) :
    (toListQ q).length = q.length := by
  obtain ⟨h1, h2, h3⟩ := h
  simp only [toListQ, List.length_take, List.length_append, List.length_drop,
    List.length_take]
  omega

theorem toListQ_of_length_zero {E : Type} {q : RingBufferQueue E}
    (h : q.length = 0) : toListQ q = [] := by
  simp [toListQ, h]

theorem rot_getD {E : Type} [Inhabited E] (l : List E) (f i : Nat)
    (hf : f < l.length) (hi : i < l.length) :
    (l.drop f ++ l.take f).getD i default = l.getD ((f + i) % l.length) default := by
  have hlen : (l.drop f ++ l.take f).length = l.length := by
    simp only [List.length_append, List.length_drop, List.length_take]
    omega
  have hmod : (f + i) % l.length = if f + i < l.length then f + i else f + i - l.length :=
    qmod_lt_two_mul (by omega)
  have hm : (f + i) % l.length < l.length := Nat.mod_lt _ (by omega)
  rw [List.getD_eq_getElem _ _ (by omega), List.getD_eq_getElem _ _ hm]
  by_cases hcase : i < l.length - f
  · have hd : i < (l.drop f).length := by simp only [List.length_drop]; omega
    rw [List.getElem_append_left hd, List.getElem_drop]
    have he : (f + i) % l.length = f + i := by rw [hmod, if_pos (by omega)]
    simp only [he]
  · have hd : (l.drop f).length ≤ i := by simp only [List.length_drop]; omega
    rw [List.getElem_append_right hd, List.getElem_take]
    have he : (f + i) % l.length = f + i - l.length := by rw [hmod, if_neg (by omega)]
    simp only [he, List.length_drop]
    congr 1
    omega

theorem toListQ_getD {E : Type} [Inhabited E] {q : RingBufferQueue E} (h : QInv q)
    {i : Nat} (hi : i < q.length) :
    (toListQ q).getD i default = q.items.getD ((q.front + i) % q.items.length) default := by
  obtain ⟨h1, h2, h3⟩ := h
  have hlen : (q.items.drop q.front ++ q.items.take q.front).length = q.items.length := by
    simp only [List.length_append, List.length_drop, List.length_take]
    omega
  rw [toListQ, List.getD_eq_getElem _ _ (by simp [List.length_take]; omega),
    List.getElem_take, ← List.getD_eq_getElem _ default (by omega)]
  exact rot_getD q.items q.front i h2 (by omega)

theorem newBounded_spec {E : Type} [Inhabited E] {c : Int} {q : RingBufferQueue E}
    (h : newBoundedRingBufferQueue E c = some q) :
    q = { items := List.replicate (if c = 0 then 2 else c.toNat) default,
          front := 0, length := 0, bounded := true } ∧ 0 ≤ c := by
  by_cases hc : c = 0
  · subst hc
    simp only [newBoundedRingBufferQueue, goMakeSlice, defaultRingBufferQueueCapacity,
      if_pos rfl] at h
    rw [if_neg (by omega)] at h
    simp only [Option.map_some', Option.some_inj] at h
    exact ⟨by simp [← h], by omega⟩
  · simp only [newBoundedRingBufferQueue, goMakeSlice, if_neg hc] at h
    by_cases hneg : c < 0
    · rw [if_pos hneg] at h
      simp at h
    · rw [if_neg hneg] at h
      simp only [Option.map_some', Option.some_inj] at h
      exact ⟨by simp [← h, hc], by omega⟩

theorem newUnbounded_spec {E : Type} [Inhabited E] {c : Int} {q : RingBufferQueue E}
    (h : newUnboundedRingBufferQueue E c = some q) :
    q = { items := List.replicate (if c = 0 then 2 else c.toNat) default,
          front := 0, length := 0, bounded := false } ∧ 0 ≤ c := by
  by_cases hc : c = 0
  · subst hc
    simp only [newUnboundedRingBufferQueue, goMakeSlice, defaultRingBufferQueueCapacity,
      if_pos rfl] at h
    rw [if_neg (by omega)] at h
    simp only [Option.map_some', Option.some_inj] at h
    exact ⟨by simp [← h], by omega⟩
  · simp only [newUnboundedRingBufferQueue, goMakeSlice, if_neg hc] at h
    by_cases hneg : c < 0
    · rw [if_pos hneg] at h
      simp at h
    · rw [if_neg hneg] at h
      simp only [Option.map_some', Option.some_inj] at h
      exact ⟨by simp [← h, hc], by omega⟩

theorem newBounded_inv {E : Type} [Inhabited E] {c : Int} {q : RingBufferQueue E}
    (h : newBoundedRingBufferQueue E c = some q) :
    QInv q ∧ q.length = 0 ∧ q.bounded = true := by
  obtain ⟨hq, hc⟩ := newBounded_spec h
  subst hq
  refine ⟨⟨?_, ?_, ?_⟩, rfl, rfl⟩ <;>
    simp only [List.length_replicate] <;> split <;> omega

theorem newUnbounded_inv {E : Type} [Inhabited E] {c : Int} {q : RingBufferQueue E}
    (h : newUnboundedRingBufferQueue E c = some q) :
    QInv q ∧ q.length = 0 ∧ q.bounded = false := by
  obtain ⟨hq, hc⟩ := newUnbounded_spec h
  subst hq
  refine ⟨⟨?_, ?_, ?_⟩, rfl, rfl⟩ <;>
    simp only [List.length_replicate] <;> split <;> omega

/-- The common tail of `Push` past the capacity check: write the item at
slot `(front + length) % cap` and increment `length`. -/
def pushBackQ {E : Type} (q : RingBufferQueue E) (x : E) : RingBufferQueue E :=
  { q with
    items := q.items.set ((q.front + q.length) % q.items.length) x
    length := q.length + 1 }

theorem Peek_of_empty {E : Type} [Inhabited E] {q : RingBufferQueue E}
    (h : q.length = 0) :
    q.Peek = (((default : E), some .queueEmpty), q) := by
  simp [RingBufferQueue.Peek, h]

theorem Peek_of_nonempty {E : Type} [Inhabited E] {q : RingBufferQueue E}
    (h : q.length ≠ 0) :
    q.Peek = ((q.items.getD q.front default, none), q) := by
  simp [RingBufferQueue.Peek, h]

theorem Pop_of_empty {E : Type} [Inhabited E] {q : RingBufferQueue E}
    (h : q.length = 0) :
    q.Pop = (((default : E), some .queueEmpty), q) := by
  rw [RingBufferQueue.Pop, Peek_of_empty h]

theorem Pop_of_nonempty {E : Type} [Inhabited E] {q : RingBufferQueue E}
    (h : q.length ≠ 0) :
    q.Pop = ((q.items.getD q.front default, none),
      { q with front := (q.front + 1) % q.items.length, length := q.length - 1 }) := by
  rw [RingBufferQueue.Pop, Peek_of_nonempty h]

theorem Push_of_full_bounded {E : Type} [Inhabited E] {q : RingBufferQueue E} (x : E)
    (hfull : q.length = q.items.length) (hb : q.bounded = true) :
    q.Push x = (q, some .queueFull) := by
  simp [RingBufferQueue.Push, hfull, hb]

theorem Push_of_not_full {E : Type} [Inhabited E] {q : RingBufferQueue E} (x : E)
    (hne : q.length ≠ q.items.length) :
    q.Push x = (pushBackQ q x, none) := by
  rw [RingBufferQueue.Push, if_neg hne]
  simp only [pushBackQ]

theorem Push_of_full_unbounded {E : Type} [Inhabited E] {q : RingBufferQueue E} (x : E)
    (hfull : q.length = q.items.length) (hb : q.bounded = false) :
    q.Push x = (pushBackQ (expand q) x, none) := by
  rw [RingBufferQueue.Push, if_pos hfull, hb]
  simp only [Bool.false_eq_true, if_false, pushBackQ]

/-! ## FIFO simulation lemmas -/

theorem list_ext_getD {E : Type} [Inhabited E] (l1 l2 : List E)
    (hlen : l1.length = l2.length)
    (h : ∀ i, i < l1.length → l1.getD i default = l2.getD i default) : l1 = l2 := by
  apply List.ext_getElem hlen
  intro i hi1 hi2
  rw [← List.getD_eq_getElem _ default hi1, ← List.getD_eq_getElem _ default hi2]
  exact h i hi1

theorem getD_set_of_lt {E : Type} [Inhabited E] (l : List E) (m j : Nat) (a : E)
    (hj : j < l.length) :
    (l.set m a).getD j default = if m = j then a else l.getD j default := by
  rw [List.getD_eq_getElem _ _ (by simp only [List.length_set]; omega),
    List.getElem_set]
  split
  · rfl
  · rw [List.getD_eq_getElem _ default hj]

theorem getD_append_left' {E : Type} [Inhabited E] {l1 l2 : List E} {j : Nat}
    (h : j < l1.length) :
    (l1 ++ l2).getD j default = l1.getD j default := by
  rw [List.getD_eq_getElem _ _ (by simp only [List.length_append]; omega),
    List.getElem_append_left h, List.getD_eq_getElem _ default h]

theorem getD_append_right' {E : Type} [Inhabited E] {l1 l2 : List E} {j : Nat}
    (h1 : l1.length ≤ j) (h2 : j < l1.length + l2.length) :
    (l1 ++ l2).getD j default = l2.getD (j - l1.length) default := by
  rw [List.getD_eq_getElem _ _ (by simp only [List.length_append]; omega),
    List.getElem_append_right h1, List.getD_eq_getElem _ default (by omega)]

theorem toListQ_pushBackQ {E : Type} [Inhabited E] {q : RingBufferQueue E} (x : E)
    (hInv : QInv q) (hlt : q.length < q.items.length) :
    toListQ (pushBackQ q x) = toListQ q ++ [x] := by
  obtain ⟨h1, h2, h3⟩ := hInv
  have hInvP : QInv (pushBackQ q x) := by
    refine ⟨?_, ?_, ?_⟩ <;> simp only [pushBackQ, List.length_set] <;> omega
  have hLP : (toListQ (pushBackQ q x)).length = q.length + 1 := toListQ_length hInvP
  have hTQ : (toListQ q).length = q.length := toListQ_length ⟨h1, h2, h3⟩
  apply list_ext_getD _ _
    (by simp only [List.length_append, List.length_cons, List.length_nil, hLP, hTQ])
  intro i hi
  rw [hLP] at hi
  have hgoal1 : (toListQ (pushBackQ q x)).getD i default
      = (q.items.set ((q.front + q.length) % q.items.length) x).getD
          ((q.front + i) % q.items.length) default := by
    have h := toListQ_getD hInvP (i := i) (by simpa only [pushBackQ] using hi)
    simpa only [pushBackQ, List.length_set] using h
  rw [hgoal1]
  have hmodn : (q.front + q.length) % q.items.length
      = if q.front + q.length < q.items.length then q.front + q.length
        else q.front + q.length - q.items.length := qmod_lt_two_mul (by omega)
  have hmodi : (q.front + i) % q.items.length
      = if q.front + i < q.items.length then q.front + i
        else q.front + i - q.items.length := qmod_lt_two_mul (by omega)
  rw [getD_set_of_lt _ _ _ _ (Nat.mod_lt _ (by omega))]
  by_cases hin : i = q.length
  · rw [if_pos (by rw [hin]),
      getD_append_right' (by omega)
        (by simp only [List.length_cons, List.length_nil]; omega)]
    simp [hin, hTQ]
  · rw [if_neg (by rw [hmodn, hmodi]; split <;> split <;> omega),
      getD_append_left' (by omega)]
    exact (toListQ_getD ⟨h1, h2, h3⟩ (by omega)).symm

theorem expand_eq {E : Type} [Inhabited E] {q : RingBufferQueue E} (hInv : QInv q)
    (hfull : q.length = q.items.length) :
    expand q = { q with
      items := q.items.drop q.front ++ q.items.take q.front ++
        List.replicate q.items.length (default : E)
      front := 0 } := by
  obtain ⟨h1, h2, h3⟩ := hInv
  rw [expand, if_neg (by omega)]
  have hsrc : (q.items.drop q.front).take (q.length - q.front) = q.items.drop q.front := by
    apply List.take_of_length_le
    simp only [List.length_drop]
    omega
  have hstep1 : goCopy (List.replicate (q.items.length * 2) (default : E))
      (q.items.drop q.front)
      = (q.items.drop q.front ++ List.replicate (q.items.length + q.front) (default : E),
         q.items.length - q.front) := by
    simp only [goCopy, List.length_replicate, List.length_drop]
    rw [Nat.min_eq_right (by omega), List.take_of_length_le (by simp only [List.length_drop]; omega),
      List.drop_replicate]
    have harith : q.items.length * 2 - (q.items.length - q.front)
        = q.items.length + q.front := by omega
    rw [harith]
  have hstep2 : goCopyAt
      (q.items.drop q.front ++ List.replicate (q.items.length + q.front) (default : E))
      (q.items.length - q.front) (q.items.take q.front)
      = (q.items.drop q.front ++ (q.items.take q.front ++
          List.replicate q.items.length (default : E)), q.front) := by
    simp only [goCopyAt, List.length_append, List.length_replicate, List.length_drop,
      List.length_take]
    rw [Nat.min_eq_right (by omega)]
    have e1 : (q.items.drop q.front ++
        List.replicate (q.items.length + q.front) (default : E)).take
        (q.items.length - q.front) = q.items.drop q.front := by
      rw [List.take_append_of_le_length (by simp only [List.length_drop]; omega),
        List.take_of_length_le (by simp only [List.length_drop]; omega)]
    have e2 : (q.items.take q.front).take (min q.front q.items.length) =
        q.items.take q.front := by
      rw [Nat.min_eq_left (by omega), List.take_take, Nat.min_self]
    have e3 : (q.items.drop q.front ++
        List.replicate (q.items.length + q.front) (default : E)).drop
        (q.items.length - q.front + min q.front q.items.length)
        = List.replicate q.items.length (default : E) := by
      rw [Nat.min_eq_left (by omega)]
      have hsum : q.items.length - q.front + q.front
          = (q.items.drop q.front).length + q.front := by
        simp only [List.length_drop]
      rw [hsum, List.drop_append, List.drop_replicate]
      congr 1
      omega
    rw [Nat.min_eq_left (by omega)] at e2 e3 ⊢
    rw [e1, e3]
    rw [List.take_take, Nat.min_self]
    rw [List.append_assoc]
  simp only [hsrc, hstep1, hstep2]
  by_cases hf0 : q.front > 0
  · rw [if_pos hf0]
    simp only [List.append_assoc]
  · rw [if_neg hf0]
    have hf : q.front = 0 := by omega
    simp [hf]

theorem toListQ_expand {E : Type} [Inhabited E] {q : RingBufferQueue E} (hInv : QInv q)
    (hfull : q.length = q.items.length) :
    toListQ (expand q) = toListQ q := by
  rw [expand_eq hInv hfull]
  obtain ⟨h1, h2, h3⟩ := hInv
  simp only [toListQ, List.drop_zero, List.take_zero, List.append_nil]
  rw [List.take_append_of_le_length
    (by simp only [List.length_append, List.length_drop, List.length_take]; omega)]

theorem expand_fields {E : Type} [Inhabited E] {q : RingBufferQueue E} (hInv : QInv q)
    (hfull : q.length = q.items.length) :
    QInv (expand q) ∧ (expand q).items.length = 2 * q.items.length ∧
    (expand q).length = q.length ∧ (expand q).front = 0 ∧
    (expand q).bounded = q.bounded := by
  obtain ⟨h1, h2, h3⟩ := hInv
  rw [expand_eq ⟨h1, h2, h3⟩ hfull]
  refine ⟨⟨?_, ?_, ?_⟩, ?_, rfl, rfl, rfl⟩ <;>
    simp only [List.length_append, List.length_drop, List.length_take,
      List.length_replicate] <;> omega

theorem QInv_pushBackQ {E : Type} {q : RingBufferQueue E} (x : E) (hInv : QInv q)
    (hlt : q.length < q.items.length) : QInv (pushBackQ q x) := by
  obtain ⟨h1, h2, h3⟩ := hInv
  refine ⟨?_, ?_, ?_⟩ <;> simp only [pushBackQ, List.length_set] <;> omega

theorem Push_sound {E : Type} [Inhabited E] {q : RingBufferQueue E} (x : E)
    (hInv : QInv q) (hok : (q.Push x).2 = none) :
    QInv (q.Push x).1 ∧ toListQ (q.Push x).1 = toListQ q ++ [x] ∧
    (q.Push x).1.length = q.length + 1 ∧ (q.Push x).1.bounded = q.bounded := by
  by_cases hfull : q.length = q.items.length
  · cases hb : q.bounded with
    | true =>
      rw [Push_of_full_bounded x hfull hb] at hok
      simp at hok
    | false =>
      obtain ⟨hIe, hce, hle, hfe, hbe⟩ := expand_fields hInv hfull
      have h1 : 0 < q.items.length := hInv.1
      have hlt : (expand q).length < (expand q).items.length := by
        rw [hce, hle]
        omega
      rw [Push_of_full_unbounded x hfull hb]
      refine ⟨QInv_pushBackQ x hIe hlt, ?_, ?_, ?_⟩
      · rw [toListQ_pushBackQ x hIe hlt, toListQ_expand hInv hfull]
      · simp only [pushBackQ, hle]
      · simp only [pushBackQ, hbe, hb]
  · have hlt : q.length < q.items.length := by
      have := hInv.2.2
      omega
    rw [Push_of_not_full x (by omega)]
    exact ⟨QInv_pushBackQ x hInv hlt, toListQ_pushBackQ x hInv hlt, rfl, rfl⟩

theorem getD_drop' {E : Type} [Inhabited E] (l : List E) (k i : Nat)
    (h : k + i < l.length) :
    (l.drop k).getD i default = l.getD (k + i) default := by
  rw [List.getD_eq_getElem _ _ (by simp only [List.length_drop]; omega),
    List.getElem_drop, List.getD_eq_getElem _ default (by omega)]

theorem Pop_sound {E : Type} [Inhabited E] {q : RingBufferQueue E}
    (hInv : QInv q) (hne : q.length ≠ 0) :
    q.Pop.1 = ((toListQ q).getD 0 default, none) ∧ QInv q.Pop.2 ∧
    toListQ q.Pop.2 = (toListQ q).drop 1 ∧ q.Pop.2.length = q.length - 1 ∧
    q.Pop.2.items.length = q.items.length ∧ q.Pop.2.bounded = q.bounded := by
  obtain ⟨h1, h2, h3⟩ := hInv
  have hv : (toListQ q).getD 0 default = q.items.getD q.front default := by
    have h0 := toListQ_getD ⟨h1, h2, h3⟩ (i := 0) (by omega)
    simpa [Nat.mod_eq_of_lt h2] using h0
  rw [Pop_of_nonempty hne]
  have hIp : QInv ({ q with
      front := (q.front + 1) % q.items.length
      length := q.length - 1 } : RingBufferQueue E) :=
    ⟨h1, Nat.mod_lt _ (by omega), by simp only []; omega⟩
  refine ⟨by rw [hv], hIp, ?_, rfl, rfl, rfl⟩
  have hTQ : (toListQ q).length = q.length := toListQ_length ⟨h1, h2, h3⟩
  apply list_ext_getD _ _
    (by rw [toListQ_length hIp, List.length_drop, hTQ])
  intro i hi
  rw [toListQ_length hIp] at hi
  have hi2 : i < q.length - 1 := hi
  have hL := toListQ_getD hIp (i := i) hi
  simp only [] at hL
  rw [hL, Nat.mod_add_mod]
  rw [getD_drop' _ _ _ (by omega)]
  have hR := toListQ_getD ⟨h1, h2, h3⟩ (i := 1 + i) (by omega)
  rw [hR]
  congr 1
  rw [Nat.add_assoc]

theorem Push_of_err {E : Type} [Inhabited E] {q : RingBufferQueue E} {x : E}
    {e : QueueError} (h : (q.Push x).2 = some e) :
    (q.Push x).1 = q ∧ e = .queueFull ∧ q.bounded = true ∧
    q.length = q.items.length := by
  by_cases hfull : q.length = q.items.length
  · cases hb : q.bounded with
    | true =>
      rw [Push_of_full_bounded x hfull hb] at h ⊢
      simp only [Option.some_inj] at h
      exact ⟨rfl, h.symm, rfl, hfull⟩
    | false =>
      rw [Push_of_full_unbounded x hfull hb] at h
      simp at h
  · rw [Push_of_not_full x (by omega)] at h
    simp at h

theorem Push_ok_of_not_full_bounded {E : Type} [Inhabited E]
    {q : RingBufferQueue E} (x : E)
    (h : ¬ (q.length = q.items.length ∧ q.bounded = true)) :
    (q.Push x).2 = none := by
  by_cases hfull : q.length = q.items.length
  · cases hb : q.bounded with
    | true => exact absurd ⟨hfull, hb⟩ h
    | false => rw [Push_of_full_unbounded x hfull hb]
  · rw [Push_of_not_full x (by omega)]

theorem Push_length_of_ok {E : Type} [Inhabited E] {q : RingBufferQueue E} {x : E}
    (h : (q.Push x).2 = none) : (q.Push x).1.length = q.length + 1 := by
  by_cases hfull : q.length = q.items.length
  · cases hb : q.bounded with
    | true =>
      rw [Push_of_full_bounded x hfull hb] at h
      simp at h
    | false =>
      rw [Push_of_full_unbounded x hfull hb]
      have hle : (expand q).length = q.length := by
        rw [expand, if_neg (by omega)]
      simp only [pushBackQ, hle]
  · rw [Push_of_not_full x (by omega)]
    rfl

theorem Pop_of_err {E : Type} [Inhabited E] {q : RingBufferQueue E}
    {v : E} {e : QueueError} (h : q.Pop.1 = (v, some e)) :
    q.Pop.2 = q ∧ e = .queueEmpty ∧ v = default ∧ q.length = 0 := by
  by_cases hlen : q.length = 0
  · rw [Pop_of_empty hlen] at h ⊢
    simp only [Prod.mk.injEq, Option.some_inj] at h
    exact ⟨rfl, h.2.symm, h.1.symm, hlen⟩
  · rw [Pop_of_nonempty hlen] at h
    simp at h

theorem Pop_ok_iff {E : Type} [Inhabited E] {q : RingBufferQueue E} :
    q.Pop.1.2 = none ↔ q.length ≠ 0 := by
  by_cases hlen : q.length = 0
  · rw [Pop_of_empty hlen]
    simp [hlen]
  · rw [Pop_of_nonempty hlen]
    simp [hlen]

theorem pushAll_sound {E : Type} [Inhabited E] (xs : List E) :
    ∀ (q : RingBufferQueue E), QInv q → (pushAll q xs).2 = none →
    QInv (pushAll q xs).1 ∧ toListQ (pushAll q xs).1 = toListQ q ++ xs := by
  induction xs with
  | nil =>
    intro q hInv _
    exact ⟨hInv, by simp [pushAll]⟩
  | cons x xs ih =>
    intro q hInv hok
    rcases hp : q.Push x with ⟨q1, e⟩
    cases e with
    | some e =>
      rw [pushAll, hp] at hok
      simp at hok
    | none =>
      have hps := Push_sound x hInv (by rw [hp])
      rw [hp] at hps
      rw [pushAll, hp] at hok ⊢
      obtain ⟨hI1, hT1, _, _⟩ := hps
      obtain ⟨hI2, hT2⟩ := ih q1 hI1 hok
      refine ⟨hI2, ?_⟩
      rw [hT2, hT1, List.append_assoc]
      rfl

theorem pushAll_succeeds {E : Type} [Inhabited E] (xs : List E) :
    ∀ (q : RingBufferQueue E), q.length + xs.length ≤ q.items.length →
    (pushAll q xs).2 = none ∧
    (pushAll q xs).1.length = q.length + xs.length ∧
    (pushAll q xs).1.items.length = q.items.length := by
  induction xs with
  | nil =>
    intro q _
    exact ⟨rfl, by simp [pushAll], rfl⟩
  | cons x xs ih =>
    intro q hroom
    have hlt : q.length < q.items.length := by
      simp only [List.length_cons] at hroom
      omega
    rw [pushAll, Push_of_not_full x (by omega)]
    have hfields : (pushBackQ q x).length = q.length + 1 ∧
        (pushBackQ q x).items.length = q.items.length := by
      simp [pushBackQ]
    obtain ⟨h1, h2⟩ := hfields
    have := ih (pushBackQ q x) (by
      simp only [List.length_cons] at hroom
      omega)
    refine ⟨this.1, ?_, ?_⟩
    · rw [this.2.1, h1, List.length_cons]
      omega
    · rw [this.2.2, h2]

theorem popN_sound {E : Type} [Inhabited E] (n : Nat) :
    ∀ (q : RingBufferQueue E), QInv q → n ≤ q.length →
    (popN q n).1 = ((toListQ q).take n).map (fun a => (a, (none : Option QueueError))) ∧
    QInv (popN q n).2 ∧ toListQ (popN q n).2 = (toListQ q).drop n := by
  induction n with
  | zero =>
    intro q hInv _
    exact ⟨by simp [popN], hInv, by simp [popN]⟩
  | succ n ih =>
    intro q hInv hle
    have hne : q.length ≠ 0 := by omega
    obtain ⟨hv, hI1, hT1, hl1, _, _⟩ := Pop_sound hInv hne
    have hrec := ih q.Pop.2 hI1 (by omega)
    have hTQ : (toListQ q).length = q.length := toListQ_length hInv
    rcases hl : toListQ q with _ | ⟨a, t⟩
    · rw [hl] at hTQ
      simp at hTQ
      omega
    · refine ⟨?_, hrec.2.1, ?_⟩
      · show (q.Pop.1 :: (popN q.Pop.2 n).1) = _
        rw [hrec.1, hv, hT1, hl]
        simp
      · show toListQ (popN q.Pop.2 n).2 = (a :: t).drop (n + 1)
        rw [hrec.2.2, hT1, hl]
        simp [List.drop_drop]

theorem peekN_const {E : Type} [Inhabited E] {q : RingBufferQueue E}
    (hne : q.length ≠ 0) (n : Nat) :
    peekN q n = List.replicate n (q.items.getD q.front default, none) := by
  induction n with
  | zero => rfl
  | succ n ih =>
    rw [peekN, Peek_of_nonempty hne]
    rw [List.replicate ]
    exact congrArg _ ih

theorem runOps_length {E : Type} [Inhabited E] (ops : List (QOp E)) :
    ∀ (q : RingBufferQueue E),
    (runOps q ops).1.length + (runOps q ops).2.2 = q.length + (runOps q ops).2.1 := by
  induction ops with
  | nil =>
    intro q
    simp [runOps]
  | cons op ops ih =>
    intro q
    cases op with
    | push x =>
      rcases hp : q.Push x with ⟨q1, e⟩
      have hgoal : runOps q (.push x :: ops)
          = ((runOps q1 ops).1,
             (match e with | none => 1 | some _ => 0) + (runOps q1 ops).2.1,
             (runOps q1 ops).2.2) := by
        simp [runOps, hp]
        cases e <;> rfl
      rw [hgoal]
      cases e with
      | none =>
        have hl : q1.length = q.length + 1 := by
          have h := Push_length_of_ok (x := x) (q := q) (by rw [hp])
          rw [hp] at h
          exact h
        have hrec := ih q1
        show (runOps q1 ops).1.length + (runOps q1 ops).2.2
            = q.length + (1 + (runOps q1 ops).2.1)
        omega
      | some e2 =>
        have hq1 : q1 = q := by
          have h := (Push_of_err (x := x) (q := q) (e := e2) (by rw [hp])).1
          rw [hp] at h
          exact h
        subst hq1
        have hrec := ih q1
        show (runOps q1 ops).1.length + (runOps q1 ops).2.2
            = q1.length + (0 + (runOps q1 ops).2.1)
        omega
    | pop =>
      rcases hp : q.Pop with ⟨⟨v, e⟩, q1⟩
      have hgoal : runOps q (.pop :: ops)
          = ((runOps q1 ops).1, (runOps q1 ops).2.1,
             (match e with | none => 1 | some _ => 0) + (runOps q1 ops).2.2) := by
        simp [runOps, hp]
        cases e <;> rfl
      rw [hgoal]
      cases e with
      | none =>
        have hne : q.length ≠ 0 := by
          have h := Pop_ok_iff (q := q)
          rw [hp] at h
          simpa using h
        have hl : q1.length = q.length - 1 := by
          have h := Pop_of_nonempty (q := q) hne
          rw [hp] at h
          exact congrArg (fun z => z.2.length) h
        have hrec := ih q1
        show (runOps q1 ops).1.length + (1 + (runOps q1 ops).2.2)
            = q.length + (runOps q1 ops).2.1
        omega
      | some e2 =>
        have hq1 : q1 = q := by
          have h := (Pop_of_err (q := q) (v := v) (e := e2) (by rw [hp])).1
          rw [hp] at h
          exact h
        subst hq1
        have hrec := ih q1
        show (runOps q1 ops).1.length + (0 + (runOps q1 ops).2.2)
            = q1.length + (runOps q1 ops).2.1
        omega

theorem expand_bounded {E : Type} [Inhabited E] (q : RingBufferQueue E) :
    (expand q).bounded = q.bounded := by
  rw [expand]
  split <;> rfl

theorem expand_length {E : Type} [Inhabited E] (q : RingBufferQueue E) :
    (expand q).length = q.length := by
  rw [expand]
  split <;> rfl

theorem Push_preserves_QInv {E : Type} [Inhabited E] {q : RingBufferQueue E} (x : E)
    (hInv : QInv q) : QInv (q.Push x).1 := by
  by_cases hfull : q.length = q.items.length
  · cases hb : q.bounded with
    | true =>
      rw [Push_of_full_bounded x hfull hb]
      exact hInv
    | false =>
      exact (Push_sound x hInv (by rw [Push_of_full_unbounded x hfull hb])).1
  · exact (Push_sound x hInv (by rw [Push_of_not_full x hfull])).1

theorem Pop_preserves_QInv {E : Type} [Inhabited E] {q : RingBufferQueue E}
    (hInv : QInv q) : QInv q.Pop.2 := by
  by_cases hlen : q.length = 0
  · rw [Pop_of_empty hlen]
    exact hInv
  · exact (Pop_sound hInv hlen).2.1

theorem Reachable_QInv {E : Type} [Inhabited E] {q : RingBufferQueue E}
    (h : Reachable q) : QInv q := by
  induction h with
  | boundedNew c q hmk => exact (newBounded_inv hmk).1
  | unboundedNew c q hmk => exact (newUnbounded_inv hmk).1
  | pushStep q x _ ih => exact Push_preserves_QInv x ih
  | popStep q _ ih => exact Pop_preserves_QInv ih

theorem Push_cap_eq_or_double {E : Type} [Inhabited E] {q : RingBufferQueue E} (x : E)
    (hInv : QInv q) :
    (q.Push x).1.items.length = q.items.length ∨
    ((q.Push x).1.items.length = 2 * q.items.length ∧
     q.length = q.items.length ∧ q.bounded = false) := by
  by_cases hfull : q.length = q.items.length
  · cases hb : q.bounded with
    | true =>
      rw [Push_of_full_bounded x hfull hb]
      exact Or.inl rfl
    | false =>
      right
      rw [Push_of_full_unbounded x hfull hb]
      refine ⟨?_, hfull, rfl⟩
      simp only [pushBackQ, List.length_set]
      exact (expand_fields hInv hfull).2.1
  · left
    rw [Push_of_not_full x hfull]
    simp only [pushBackQ, List.length_set]

theorem Push_cap_bounded {E : Type} [Inhabited E] {q : RingBufferQueue E} (x : E)
    (hb : q.bounded = true) :
    (q.Push x).1.items.length = q.items.length := by
  by_cases hfull : q.length = q.items.length
  · rw [Push_of_full_bounded x hfull hb]
  · rw [Push_of_not_full x hfull]
    simp only [pushBackQ, List.length_set]

theorem Pop_cap {E : Type} [Inhabited E] (q : RingBufferQueue E) :
    q.Pop.2.items.length = q.items.length := by
  by_cases hlen : q.length = 0
  · rw [Pop_of_empty hlen]
  · rw [Pop_of_nonempty hlen]

theorem Push_flag {E : Type} [Inhabited E] (q : RingBufferQueue E) (x : E) :
    (q.Push x).1.bounded = q.bounded := by
  by_cases hfull : q.length = q.items.length
  · cases hb : q.bounded with
    | true =>
      rw [Push_of_full_bounded x hfull hb]
      exact hb
    | false =>
      rw [Push_of_full_unbounded x hfull hb]
      simp only [pushBackQ]
      rw [expand_bounded, hb]
  · rw [Push_of_not_full x hfull]
    rfl

theorem Pop_flag {E : Type} [Inhabited E] (q : RingBufferQueue E) :
    q.Pop.2.bounded = q.bounded := by
  by_cases hlen : q.length = 0
  · rw [Pop_of_empty hlen]
  · rw [Pop_of_nonempty hlen]

/-- The growth-with-interleaved-pop scenario from the spec: an unbounded
queue of initial capacity 2; Push(1), Push(2), Pop, Push(3), Push(4); the
result pairs the first Pop's output with the outputs of three subsequent
Pops. -/
def growScenario : (Int × Option QueueError) × List (Int × Option QueueError) :=
  match newUnboundedRingBufferQueue Int 2 with
  | none => ((0, none), [])
  | some q0 =>
    let r1 := q0.Push 1
    let r2 := r1.1.Push 2
    let r3 := r2.1.Pop
    let r4 := r3.2.Push 3
    let r5 := r4.1.Push 4
    (r3.1, (popN r5.1 3).1)

/-! ## Claim theorems -/

/-- C1: FIFO order — for every queue made by either constructor (any
capacity) and any sequence of items all pushed successfully with no
intervening pops, popping that many times returns exactly those items, in
the same order, each without error. -/
theorem C1_fifo_order (E : Type) [Inhabited E] (b : Bool) (c : Int)
    (q0 : RingBufferQueue E)
    (hmk : (if b then newBoundedRingBufferQueue E c
            else newUnboundedRingBufferQueue E c) = some q0)
    (xs : List E) (q1 : RingBufferQueue E)
    (hp : pushAll q0 xs = (q1, none)) :
    (popN q1 xs.length).1 = xs.map (fun x => (x, (none : Option QueueError))) := by
  have h0 : QInv q0 ∧ q0.length = 0 := by
    cases b with
    | true =>
      rw [if_pos rfl] at hmk
      exact ⟨(newBounded_inv hmk).1, (newBounded_inv hmk).2.1⟩
    | false =>
      rw [if_neg (by simp)] at hmk
      exact ⟨(newUnbounded_inv hmk).1, (newUnbounded_inv hmk).2.1⟩
  have hps := pushAll_sound xs q0 h0.1 (by rw [hp])
  rw [hp] at hps
  obtain ⟨hI1, hT1⟩ := hps
  rw [toListQ_of_length_zero h0.2, List.nil_append] at hT1
  have hlen : q1.length = xs.length := by
    rw [← toListQ_length hI1, hT1]
  have hpn := popN_sound xs.length q1 hI1 (by omega)
  rw [hpn.1, hT1, List.take_of_length_le (by omega)]

/-- C1 witness: a bounded queue of capacity 2; pushing 5 then 7 and
popping twice returns 5 then 7. -/
theorem C1_fifo_order_witness :
    (popN ({ items := [5, 7], front := 0, length := 2, bounded := true } :
      RingBufferQueue Int) 2).1 = [(5, none), (7, none)] := by
  have h := C1_fifo_order Int true 2
    { items := [0, 0], front := 0, length := 0, bounded := true } (by decide)
    [5, 7] { items := [5, 7], front := 0, length := 2, bounded := true } (by decide)
  simpa using h

/-- C2: unbounded growth — when `length = capacity`, `expand` builds a new
store of exactly twice the capacity by the split copy (`items[front:cap]`
first, then `items[0:front]` right after, zero padding beyond), resets
`front` to 0, so the live elements in FIFO order occupy slots
`0..length-1`; pushing onto such a full unbounded queue doubles the
capacity; and the concrete capacity-2 scenario Push 1, Push 2, Pop → 1,
Push 3, Push 4 is followed by Pops returning 2, 3, 4 in order. -/
theorem C2_unbounded_growth :
    (∀ (E : Type) [_inst : Inhabited E] (q : RingBufferQueue E), QInv q →
      q.bounded = false → q.length = q.items.length →
      (expand q = { q with
        items := q.items.drop q.front ++ q.items.take q.front ++
          List.replicate q.items.length (default : E)
        front := 0 } ∧
      (expand q).items.length = 2 * q.items.length ∧
      (expand q).front = 0 ∧
      (expand q).items.take q.length = toListQ q) ∧
      ∀ x : E, (q.Push x).1.items.length = 2 * q.items.length) ∧
    growScenario = ((1, none), [(2, none), (3, none), (4, none)]) := by
  constructor
  · intro E _inst q hInv hb hfull
    obtain ⟨h1, h2, h3⟩ := hInv
    refine ⟨⟨expand_eq ⟨h1, h2, h3⟩ hfull, (expand_fields ⟨h1, h2, h3⟩ hfull).2.1,
      (expand_fields ⟨h1, h2, h3⟩ hfull).2.2.2.1, ?_⟩, ?_⟩
    · rw [expand_eq ⟨h1, h2, h3⟩ hfull]
      show (q.items.drop q.front ++ q.items.take q.front ++
        List.replicate q.items.length (default : E)).take q.length = toListQ q
      rw [List.take_append_of_le_length
        (by simp only [List.length_append, List.length_drop, List.length_take]; omega)]
      rfl
    · intro x
      rw [Push_of_full_unbounded x hfull hb]
      show (pushBackQ (expand q) x).items.length = 2 * q.items.length
      simp only [pushBackQ, List.length_set]
      exact (expand_fields ⟨h1, h2, h3⟩ hfull).2.1
  · decide

/-- C2 witness: expanding the full wrapped state `[3, 2]` with `front = 1`
yields the unwrapped doubled store `[2, 3, 0, 0]` with `front = 0`. -/
theorem C2_unbounded_growth_witness :
    expand ({ items := [3, 2], front := 1, length := 2, bounded := false } :
      RingBufferQueue Int) =
    { items := [2, 3, 0, 0], front := 0, length := 2, bounded := false } := by
  have h := ((C2_unbounded_growth.1 Int
    { items := [3, 2], front := 1, length := 2, bounded := false }
    ⟨by decide, by decide, by decide⟩ rfl rfl).1).1
  rw [h]
  decide

/-- C3: bounded overflow with atomicity — a Push on a bounded queue at
capacity returns `ErrQueueFull` with the state exactly unchanged, and for
every bounded queue built with capacity `K ≥ 1`, any `K` items are all
pushed successfully. -/
theorem C3_bounded_overflow :
    (∀ (E : Type) [Inhabited E] (q : RingBufferQueue E) (x : E),
      q.bounded = true → q.length = q.items.length →
      q.Push x = (q, some .queueFull)) ∧
    (∀ (E : Type) [Inhabited E] (c : Int) (q0 : RingBufferQueue E), 1 ≤ c →
      newBoundedRingBufferQueue E c = some q0 →
      ∀ xs : List E, (xs.length : Int) = c → (pushAll q0 xs).2 = none) := by
  constructor
  · intro E _ q x hb hfull
    exact Push_of_full_bounded x hfull hb
  · intro E _ c q0 hc hmk xs hxs
    obtain ⟨hq, _⟩ := newBounded_spec hmk
    subst hq
    refine (pushAll_succeeds xs _ ?_).1
    simp only [List.length_replicate]
    rw [if_neg (by omega)]
    omega

/-- C3 witness: a full bounded queue of capacity 1 rejects a push with
`ErrQueueFull`, unchanged; and a fresh bounded queue of capacity 2 accepts
two pushes. -/
theorem C3_bounded_overflow_witness :
    RingBufferQueue.Push
      ({ items := [9], front := 0, length := 1, bounded := true } :
        RingBufferQueue Int) 5 =
      ({ items := [9], front := 0, length := 1, bounded := true }, some .queueFull) ∧
    (pushAll ({ items := [0, 0], front := 0, length := 0, bounded := true } :
      RingBufferQueue Int) [4, 6]).2 = none :=
  ⟨C3_bounded_overflow.1 Int _ 5 rfl rfl,
   C3_bounded_overflow.2 Int 2 _ (by decide) (by decide) [4, 6] (by decide)⟩

/-- C4: empty-queue error contract — on any queue with length 0 (in
particular any freshly constructed queue), Pop and Peek both return the
element type's zero value together with `ErrQueueEmpty` and leave the
state exactly unchanged. -/
theorem C4_empty_error :
    (∀ (E : Type) [Inhabited E] (q : RingBufferQueue E), q.Length = 0 →
      q.Peek = (((default : E), some .queueEmpty), q) ∧
      q.Pop = (((default : E), some .queueEmpty), q)) ∧
    (∀ (E : Type) [Inhabited E] (b : Bool) (c : Int) (q0 : RingBufferQueue E),
      (if b then newBoundedRingBufferQueue E c
       else newUnboundedRingBufferQueue E c) = some q0 → q0.Length = 0) := by
  constructor
  · intro E _ q h
    exact ⟨Peek_of_empty h, Pop_of_empty h⟩
  · intro E _ b c q0 hmk
    cases b with
    | true =>
      rw [if_pos rfl] at hmk
      exact (newBounded_inv hmk).2.1
    | false =>
      rw [if_neg (by simp)] at hmk
      exact (newUnbounded_inv hmk).2.1

/-- C4 witness: a fresh unbounded queue of capacity 2 has length 0, and
Pop and Peek on it fail with `ErrQueueEmpty`, returning 0 (the zero value
of `Int`) and leaving the state unchanged. -/
theorem C4_empty_error_witness :
    (({ items := [0, 0], front := 0, length := 0, bounded := false } :
      RingBufferQueue Int).Peek = ((0, some .queueEmpty),
      { items := [0, 0], front := 0, length := 0, bounded := false }) ∧
    ({ items := [0, 0], front := 0, length := 0, bounded := false } :
      RingBufferQueue Int).Pop = ((0, some .queueEmpty),
      { items := [0, 0], front := 0, length := 0, bounded := false })) ∧
    ({ items := [0, 0], front := 0, length := 0, bounded := false } :
      RingBufferQueue Int).Length = 0 :=
  ⟨C4_empty_error.1 Int _ rfl,
   C4_empty_error.2 Int false 2 _ (by decide)⟩

/-- C5: length accounting — starting from any freshly constructed queue,
after any operation sequence with N successful Pushes and M successful
Pops, `Length()` equals N − M; in particular M ≤ N, so N − M is never
negative. -/
theorem C5_length_accounting (E : Type) [Inhabited E] (b : Bool) (c : Int)
    (q0 : RingBufferQueue E)
    (hmk : (if b then newBoundedRingBufferQueue E c
            else newUnboundedRingBufferQueue E c) = some q0)
    (ops : List (QOp E)) (qf : RingBufferQueue E) (N M : Nat)
    (hrun : runOps q0 ops = (qf, N, M)) :
    M ≤ N ∧ qf.Length = N - M := by
  have h0 : q0.length = 0 := by
    cases b with
    | true =>
      rw [if_pos rfl] at hmk
      exact (newBounded_inv hmk).2.1
    | false =>
      rw [if_neg (by simp)] at hmk
      exact (newUnbounded_inv hmk).2.1
  have h := runOps_length ops q0
  rw [hrun] at h
  have h2 : qf.length + M = q0.length + N := h
  rw [h0] at h2
  exact ⟨by omega, by show qf.length = N - M; omega⟩

/-- C5 witness: two pushes, a failed pop on empty, and one successful pop
on a fresh bounded queue give N = 2, M = 1, Length = 1. -/
theorem C5_length_accounting_witness :
    runOps ({ items := [0, 0], front := 0, length := 0, bounded := true } :
      RingBufferQueue Int) [.pop, .push 4, .push 6, .pop]
      = ({ items := [4, 6], front := 1, length := 1, bounded := true }, 2, 1) ∧
    (1 ≤ 2 ∧ ({ items := [4, 6], front := 1, length := 1, bounded := true } :
      RingBufferQueue Int).Length = 2 - 1) :=
  ⟨by decide,
   C5_length_accounting Int true 2
     { items := [0, 0], front := 0, length := 0, bounded := true } (by decide)
     [.pop, .push 4, .push 6, .pop]
     { items := [4, 6], front := 1, length := 1, bounded := true } 2 1 (by decide)⟩

/-- C6: state invariant — every reachable queue state has
`0 ≤ length ≤ capacity` (lengths are naturals, so 0 ≤ length is inherent)
and positive capacity; a Push either keeps the capacity or exactly doubles
it (the latter only for a full unbounded queue); a Pop never changes
capacity; and a bounded queue's capacity never changes. -/
theorem C6_state_invariant :
    (∀ (E : Type) [Inhabited E] (q : RingBufferQueue E), Reachable q →
      q.Length ≤ q.items.length ∧ 0 < q.items.length) ∧
    (∀ (E : Type) [Inhabited E] (q : RingBufferQueue E) (x : E), QInv q →
      (q.Push x).1.items.length = q.items.length ∨
      ((q.Push x).1.items.length = 2 * q.items.length ∧
       q.length = q.items.length ∧ q.bounded = false)) ∧
    (∀ (E : Type) [Inhabited E] (q : RingBufferQueue E),
      q.Pop.2.items.length = q.items.length) ∧
    (∀ (E : Type) [Inhabited E] (q : RingBufferQueue E) (x : E),
      q.bounded = true → (q.Push x).1.items.length = q.items.length) := by
  refine ⟨?_, ?_, ?_, ?_⟩
  · intro E _ q hr
    have h := Reachable_QInv hr
    exact ⟨h.2.2, h.1⟩
  · intro E _ q x hInv
    exact Push_cap_eq_or_double x hInv
  · intro E _ q
    exact Pop_cap q
  · intro E _ q x hb
    exact Push_cap_bounded x hb

/-- C6 witness: a queue reached by one push from a fresh bounded queue of
capacity 2 satisfies the invariant; pushing onto a full capacity-1
unbounded queue doubles the capacity to 2; a pop keeps capacity; a push
on a bounded queue keeps capacity. -/
theorem C6_state_invariant_witness :
    (({ items := [0, 0], front := 0, length := 0, bounded := true } :
        RingBufferQueue Int).Push 7).1.Length ≤
      (({ items := [0, 0], front := 0, length := 0, bounded := true } :
        RingBufferQueue Int).Push 7).1.items.length ∧
    ((({ items := [8], front := 0, length := 1, bounded := false } :
        RingBufferQueue Int).Push 9).1.items.length = 2 * 1 ∧ (1 : Nat) = 1 ∧
        false = false) ∧
    (({ items := [8], front := 0, length := 1, bounded := true } :
        RingBufferQueue Int).Pop.2.items.length = 1) ∧
    (({ items := [8], front := 0, length := 1, bounded := true } :
        RingBufferQueue Int).Push 9).1.items.length = 1 := by
  refine ⟨?_, ?_, ?_, ?_⟩
  · exact (C6_state_invariant.1 Int _
      (Reachable.pushStep _ 7 (Reachable.boundedNew 2 _ (by decide)))).1
  · have h := C6_state_invariant.2.1 Int
      { items := [8], front := 0, length := 1, bounded := false } 9
      ⟨by decide, by decide, by decide⟩
    rcases h with h | h
    · exact absurd h (by decide)
    · exact h
  · exact C6_state_invariant.2.2.1 Int
      { items := [8], front := 0, length := 1, bounded := true }
  · exact C6_state_invariant.2.2.2 Int
      { items := [8], front := 0, length := 1, bounded := true } 9 rfl

/-- C7: unbounded Push totality — a Push on an unbounded queue, in any
state, returns no error. -/
theorem C7_unbounded_push_total (E : Type) [Inhabited E]
    (q : RingBufferQueue E) (x : E) (hb : q.bounded = false) :
    (q.Push x).2 = none := by
  apply Push_ok_of_not_full_bounded
  intro hcontra
  rw [hb] at hcontra
  exact absurd hcontra.2 (by simp)

/-- C7 witness: pushing onto a full unbounded queue of capacity 2 returns
no error. -/
theorem C7_unbounded_push_total_witness :
    (({ items := [1, 2], front := 0, length := 2, bounded := false } :
      RingBufferQueue Int).Push 3).2 = none :=
  C7_unbounded_push_total Int _ 3 rfl

/-- C8: Peek idempotence and purity — Peek never changes the state (hence
`Length()` is unchanged), and on any non-empty queue any number of
consecutive Peek calls all return the front element in FIFO order with no
error. -/
theorem C8_peek_idempotent :
    (∀ (E : Type) [Inhabited E] (q : RingBufferQueue E),
      q.Peek.2 = q ∧ q.Peek.2.Length = q.Length) ∧
    (∀ (E : Type) [Inhabited E] (q : RingBufferQueue E) (n : Nat), QInv q →
      q.length ≠ 0 →
      peekN q n = List.replicate n
        ((toListQ q).getD 0 default, (none : Option QueueError))) := by
  constructor
  · intro E _ q
    have h : q.Peek.2 = q := by
      rw [RingBufferQueue.Peek]
      split <;> rfl
    exact ⟨h, by rw [h]⟩
  · intro E _ q n hInv hne
    rw [peekN_const hne n]
    obtain ⟨h1, h2, h3⟩ := hInv
    have hv : (toListQ q).getD 0 default = q.items.getD q.front default := by
      have h0 := toListQ_getD ⟨h1, h2, h3⟩ (i := 0) (by omega)
      simpa [Nat.mod_eq_of_lt h2] using h0
    rw [hv]

/-- C8 witness: on the wrapped two-element queue `[9, 4]` with `front = 1`
three consecutive Peeks all return the front element 4 with no error, and
a Peek leaves the state unchanged. -/
theorem C8_peek_idempotent_witness :
    ({ items := [9, 4], front := 1, length := 2, bounded := true } :
      RingBufferQueue Int).Peek.2 =
      { items := [9, 4], front := 1, length := 2, bounded := true } ∧
    peekN ({ items := [9, 4], front := 1, length := 2, bounded := true } :
      RingBufferQueue Int) 3 = List.replicate 3 (4, none) := by
  constructor
  · exact (C8_peek_idempotent.1 Int _).1
  · have h := C8_peek_idempotent.2 Int
      { items := [9, 4], front := 1, length := 2, bounded := true } 3
      ⟨by decide, by decide, by decide⟩ (by decide)
    rw [h]
    decide

/-- C9: default capacity — both constructors turn a requested capacity of
0 into the default capacity 2; a requested capacity `c ≥ 1` yields
capacity exactly `c`; and no reachable queue has capacity 0. -/
theorem C9_default_capacity :
    (∀ (E : Type) [Inhabited E],
      (∃ q : RingBufferQueue E, newBoundedRingBufferQueue E 0 = some q ∧
        q.items.length = 2) ∧
      (∃ q : RingBufferQueue E, newUnboundedRingBufferQueue E 0 = some q ∧
        q.items.length = 2)) ∧
    (∀ (E : Type) [Inhabited E] (c : Int), 1 ≤ c →
      (∃ q : RingBufferQueue E, newBoundedRingBufferQueue E c = some q ∧
        (q.items.length : Int) = c) ∧
      (∃ q : RingBufferQueue E, newUnboundedRingBufferQueue E c = some q ∧
        (q.items.length : Int) = c)) ∧
    (∀ (E : Type) [Inhabited E] (q : RingBufferQueue E), Reachable q →
      0 < q.items.length) := by
  refine ⟨?_, ?_, ?_⟩
  · intro E _
    constructor
    · refine ⟨_, rfl, ?_⟩
      simp [newBoundedRingBufferQueue, goMakeSlice, defaultRingBufferQueueCapacity]
    · refine ⟨_, rfl, ?_⟩
      simp [newUnboundedRingBufferQueue, goMakeSlice, defaultRingBufferQueueCapacity]
  · intro E _ c hc
    constructor
    · refine ⟨{ items := List.replicate c.toNat default
                front := 0
                length := 0
                bounded := true }, ?_, ?_⟩
      · rw [newBoundedRingBufferQueue]
        simp only [if_neg (by omega : ¬ c = 0), goMakeSlice, if_neg (by omega : ¬ c < 0),
          Option.map_some']
      · simp only [List.length_replicate]
        omega
    · refine ⟨{ items := List.replicate c.toNat default
                front := 0
                length := 0
                bounded := false }, ?_, ?_⟩
      · rw [newUnboundedRingBufferQueue]
        simp only [if_neg (by omega : ¬ c = 0), goMakeSlice, if_neg (by omega : ¬ c < 0),
          Option.map_some']
      · simp only [List.length_replicate]
        omega
  · intro E _ q hr
    exact (Reachable_QInv hr).1

/-- C9 witness: requesting capacity 0 from the bounded constructor yields
capacity 2, requesting 5 from the unbounded constructor yields capacity
5, and a fresh bounded queue of capacity 1 has positive capacity. -/
theorem C9_default_capacity_witness :
    (∃ q : RingBufferQueue Int, newBoundedRingBufferQueue Int 0 = some q ∧
      q.items.length = 2) ∧
    (∃ q : RingBufferQueue Int, newUnboundedRingBufferQueue Int 5 = some q ∧
      (q.items.length : Int) = 5) ∧
    0 < ({ items := [0], front := 0, length := 0, bounded := true } :
      RingBufferQueue Int).items.length :=
  ⟨(C9_default_capacity.1 Int).1,
   (C9_default_capacity.2.1 Int 5 (by decide)).2,
   C9_default_capacity.2.2 Int _ (Reachable.boundedNew 1 _ (by decide))⟩

/-- C10: construction precondition — for every requested capacity `c ≥ 0`
both constructors return a queue, while for every `c < 0` both panic on
`make` of a negative-length slice (modelled as `none`). -/
theorem C10_negative_capacity (c : Int) :
    (c < 0 → newBoundedRingBufferQueue Int c = none ∧
      newUnboundedRingBufferQueue Int c = none) ∧
    (0 ≤ c → (newBoundedRingBufferQueue Int c).isSome = true ∧
      (newUnboundedRingBufferQueue Int c).isSome = true) := by
  constructor
  · intro hneg
    constructor
    · rw [newBoundedRingBufferQueue]
      simp only [if_neg (by omega : ¬ c = 0), goMakeSlice, if_pos hneg, Option.map_none']
    · rw [newUnboundedRingBufferQueue]
      simp only [if_neg (by omega : ¬ c = 0), goMakeSlice, if_pos hneg, Option.map_none']
  · intro hpos
    by_cases hc : c = 0
    · subst hc
      constructor <;> decide
    · constructor
      · rw [newBoundedRingBufferQueue]
        simp only [if_neg hc, goMakeSlice, if_neg (by omega : ¬ c < 0),
          Option.map_some', Option.isSome_some]
      · rw [newUnboundedRingBufferQueue]
        simp only [if_neg hc, goMakeSlice, if_neg (by omega : ¬ c < 0),
          Option.map_some', Option.isSome_some]

/-- C10 witness: capacity −1 makes both constructors panic (`none`), and
capacity 3 makes both succeed. -/
theorem C10_negative_capacity_witness :
    (newBoundedRingBufferQueue Int (-1) = none ∧
      newUnboundedRingBufferQueue Int (-1) = none) ∧
    ((newBoundedRingBufferQueue Int 3).isSome = true ∧
      (newUnboundedRingBufferQueue Int 3).isSome = true) :=
  ⟨(C10_negative_capacity (-1)).1 (by decide),
   (C10_negative_capacity 3).2 (by decide)⟩
